import Mathlib

/-!
# LiteratureQuery citation-resolution core: shallow embedding

This file embeds the citation-resolution core of the LiteratureQuery
repository in Lean 4 and proves the specification claims about it.

Two components are embedded, both operating on `List Char` (Python `str`):

* the Citation Parser (`parse_citations`), from the manual extraction
  template (`src/data/extraction_templates/...` and the template string in
  `src/extract_references.py`): the regex
  `\[(\d+(?:,\s*\d+)*)\]` scanned over the text by `re.findall`, each
  captured group split on commas, stripped, converted with `int`, and the
  whole collection returned as `sorted(set(all_refs))`;

* the Reference Resolver (`resolve_references`), from
  `src/list_references.py`: locating the bibliography block via
  `text.find('References')` with fallback `text.find('[1]')` and the Python
  slice `text[start:]`, then for each requested id a search for the regex
  `\[{n}\]\s+(.*?)(?=\n\[|\nAppendix|\n\d+\n|$)` with `re.DOTALL`, the
  matched group cleaned by `.strip()` and `re.sub(r'\s+', ' ', ...)`,
  a missing id reported as a NOT FOUND sentinel (here `Option.none`).
-/

/-- Python `\s` on the ASCII range: space, tab, newline, carriage return,
vertical tab, form feed. -/
def isPySpace (c : Char) : Bool :=
  c = ' ' || c = '\t' || c = '\n' || c = '\r' || c = Char.ofNat 11 || c = Char.ofNat 12

/-- Decimal digit test, Python `\d` on ASCII input. -/
def isDig (c : Char) : Bool :=
  '0' ≤ c && c ≤ '9'

/-- Greedy `\d+`/`\d*`: the maximal leading run of digits, and the rest. -/
def takeDigits : List Char → List Char × List Char
  | [] => ([], [])
  | c :: cs =>
    if isDig c then
      let p := takeDigits cs
      (c :: p.1, p.2)
    else ([], c :: cs)

/-- Greedy `\s*`: drop the maximal leading run of whitespace. -/
def dropSpaces : List Char → List Char
  | [] => []
  | c :: cs => if isPySpace c then dropSpaces cs else c :: cs

/-- `pat.startsWith s`-style test: `pat` is a prefix of `s`. -/
def startsWith : List Char → List Char → Bool
  | [], _ => true
  | _ :: _, [] => false
  | p :: ps, c :: cs => p = c && startsWith ps cs

/-- Value of a run of decimal digit characters, Python `int` on the
stripped component of a citation group. -/
def digitsVal (ds : List Char) : Nat :=
  ds.foldl (fun a c => 10 * a + (c.toNat - 48)) 0

/-- The comma loop of the citation regex `(?:,\s*\d+)*\]`, entered right
after a digit run: either `]` closes the marker, or `,` followed by
optional whitespace and a further digit run continues it; anything else
(including a comma not followed by digits, where the regex engine
backtracks onto the `,` and fails to see `]`) fails the whole match.
The accumulated digit runs are the comma-separated components of the
captured group after `.split(',')` and `.strip()`.  Fueled; every
iteration consumes at least two characters, so fuel `s.length + 1` is
never exhausted. -/
def matchCompsAux : Nat → List Char → List (List Char) →
    Option (List (List Char) × List Char)
  | 0, _, _ => none
  | _ + 1, [], _ => none
  | fuel + 1, c :: r1, acc =>
    if c = ']' then some (acc.reverse, r1)
    else if c = ',' then
      let p := takeDigits (dropSpaces r1)
      if p.1.isEmpty then none
      else matchCompsAux fuel p.2 (p.1 :: acc)
    else none

/-- Try to match the citation regex `\[(\d+(?:,\s*\d+)*)\]` at the head of
`s`.  On success, return the digit-run components of the captured group
and the remaining text after the match. -/
def matchCitationAt (s : List Char) : Option (List (List Char) × List Char) :=
  match s with
  | [] => none
  | c :: rest =>
    if c = '[' then
      let p := takeDigits rest
      if p.1.isEmpty then none
      else matchCompsAux (p.2.length + 1) p.2 [p.1]
    else none

/-- The `re.findall` scan followed by `int` conversion: at each position
try the citation marker; on a match collect the integer values of its
components and resume after the match, otherwise advance one character.
This is `all_refs` of the template.  Fueled; a successful match consumes
at least three characters and a failure advances one, so fuel
`s.length + 1` is never exhausted. -/
def allRefsAux : Nat → List Char → List Nat
  | 0, _ => []
  | fuel + 1, s =>
    match matchCitationAt s with
    | some (comps, rest) => comps.map digitsVal ++ allRefsAux fuel rest
    | none =>
      match s with
      | [] => []
      | _ :: t => allRefsAux fuel t

/-- All reference numbers cited in `text`, with duplicates and in text
order (`all_refs` in the template). -/
def all_refs (text : List Char) : List Nat :=
  allRefsAux (text.length + 1) text

/-- The Citation Parser: `sorted(set(all_refs))` — the deduplicated,
ascending list of cited reference ids (`unique_refs` in the template).
`sorted(set(...))` is modelled as deduplication followed by an ascending
sort, which produces the same list: the distinct cited ids in ascending
order. -/
def parse_citations (text : List Char) : List Nat :=
  ((all_refs text).dedup).insertionSort (· ≤ ·)

/-! ## Reference Resolver (`src/list_references.py`) -/

/-- Index of the leftmost occurrence of `pat` in `hay`, if any
(the successful side of Python `str.find`). -/
def findSub : List Char → List Char → Option Nat
  | hay, pat =>
    if startsWith pat hay then some 0
    else
      match hay with
      | [] => none
      | _ :: t => (findSub t pat).map (· + 1)

/-- Python `hay.find(pat)`: leftmost index, or `-1` when absent. -/
def pyFind (hay pat : List Char) : Int :=
  match findSub hay pat with
  | some i => (i : Int)
  | none => -1

/-- Python slice `l[i:]`: for a negative start the length is added, and
the result is clamped to the whole list. -/
def pySlice (l : List Char) (i : Int) : List Char :=
  if 0 ≤ i then l.drop i.toNat
  else l.drop ((l.length + i)).toNat

/-- `references_text` of `src/list_references.py`: the slice of the full
text from `text.find('References')`, falling back to `text.find('[1]')`
when the former is `-1`; the (possibly still `-1`) result is used
directly as a Python slice start. -/
def references_text (text : List Char) : List Char :=
  let s := pyFind text ("References".data)
  let s2 := if s = -1 then pyFind text ("[1]".data) else s
  pySlice text s2

/-- The literal marker `[n]` of the per-id pattern `\[{ref_num}\]`. -/
def marker (n : Nat) : List Char :=
  '[' :: (Nat.toDigits 10 n ++ [']'])

/-- The `\n\d+\n` alternative of the lookahead: a newline, a nonempty
digit run, and another newline (a bare page-number line). -/
def matchNlDigitsNl : List Char → Bool
  | '\n' :: rest =>
    let p := takeDigits rest
    !p.1.isEmpty && (match p.2 with | '\n' :: _ => true | _ => false)
  | _ => false

/-- The `$` anchor without `re.MULTILINE`: end of string, or just before
a newline that ends the string. -/
def atDollar : List Char → Bool
  | [] => true
  | ['\n'] => true
  | _ => false

/-- The lookahead `(?=\n\[|\nAppendix|\n\d+\n|$)` of the entry pattern,
tested against the suffix that remains at a candidate entry end. -/
def isTerminator (rest : List Char) : Bool :=
  startsWith ("\n[".data) rest || startsWith ("\nAppendix".data) rest ||
    matchNlDigitsNl rest || atDollar rest

/-- The lazy group `(.*?)` under `re.DOTALL`: extend the entry one
character at a time, stopping at the first position whose remaining
suffix satisfies the lookahead.  Since `$` holds at the end of the
string, this always terminates with a (possibly empty) group. -/
def lazyGroup : List Char → List Char
  | [] => []
  | c :: cs => if isTerminator (c :: cs) then [] else c :: lazyGroup cs

/-- Try the entry pattern `\[{n}\]\s+(.*?)(?=...)` anchored at the head
of `s`: the literal marker, at least one whitespace character (consumed
greedily), then the lazy group.  Returns the group on success. -/
def matchRefAt (s : List Char) (n : Nat) : Option (List Char) :=
  if startsWith (marker n) s then
    match s.drop (marker n).length with
    | c :: cs => if isPySpace c then some (lazyGroup (dropSpaces (c :: cs))) else none
    | [] => none
  else none

/-- `re.search` of the entry pattern in the bibliography block: the match
at the leftmost position where the pattern succeeds. -/
def searchRef : List Char → Nat → Option (List Char)
  | [], n => matchRefAt [] n
  | c :: t, n =>
    match matchRefAt (c :: t) n with
    | some g => some g
    | none => searchRef t n

/-- Python `str.strip()`: drop leading and trailing whitespace. -/
def pyStrip (s : List Char) : List Char :=
  (dropSpaces ((dropSpaces s).reverse)).reverse

/-- Worker for `re.sub(r'\s+', ' ', s)`: the flag records whether the
previous character was part of a whitespace run already replaced. -/
def collapseAux : Bool → List Char → List Char
  | _, [] => []
  | inRun, c :: cs =>
    if isPySpace c then
      if inRun then collapseAux true cs
      else ' ' :: collapseAux true cs
    else c :: collapseAux false cs

/-- `re.sub(r'\s+', ' ', s)`: every maximal whitespace run becomes one
space. -/
def collapseWs (s : List Char) : List Char :=
  collapseAux false s

/-- The per-id body of the resolver loop: search the bibliography block
for the entry pattern; on a match, strip the captured group and collapse
its internal whitespace; otherwise NOT FOUND (`none`). -/
def extractRef (block : List Char) (n : Nat) : Option (List Char) :=
  (searchRef block n).map (fun raw => collapseWs (pyStrip raw))

/-- The Reference Resolver: locate the bibliography block once, then
produce one output per requested id, in request order — the cleaned
entry text or the NOT FOUND sentinel. -/
def resolve_references (text : List Char) (ids : List Nat) :
    List (Nat × Option (List Char)) :=
  ids.map fun n => (n, extractRef (references_text text) n)

/-- Whether a suffix of the block begins with a whitespace character —
the `\s+` requirement of the entry pattern right after the marker. -/
def followedByWs : List Char → Bool
  | [] => false
  | c :: _ => isPySpace c

/-- The first character, if any, is not whitespace. -/
def headNoWs : List Char → Bool
  | [] => true
  | c :: _ => !isPySpace c

/-- The last character, if any, is not whitespace. -/
def lastNoWs : List Char → Bool
  | [] => true
  | [c] => !isPySpace c
  | _ :: c :: cs => lastNoWs (c :: cs)

/-- No two adjacent characters are both whitespace. -/
def noAdjWs : List Char → Bool
  | [] => true
  | [_] => true
  | c :: d :: rest => !(isPySpace c && isPySpace d) && noAdjWs (d :: rest)

/-- A fully normalized entry text: every whitespace character in it is a
plain space, no two adjacent whitespace characters, and no leading or
trailing whitespace. -/
def wsNormalized (t : List Char) : Bool :=
  (t.all fun c => !isPySpace c || c = ' ') && noAdjWs t && headNoWs t && lastNoWs t

/-! ## Claims about the Citation Parser -/

/-- The id column of the resolver output is the request list itself. -/
theorem resolve_references_map_fst (text : List Char) (ids : List Nat) :
    (resolve_references text ids).map Prod.fst = ids := by
  induction ids with
  | nil => rfl
  | cons a t ih =>
    simp only [resolve_references, List.map_cons] at ih ⊢
    rw [ih]

/-- **C1.** The Resolver's result covers exactly the requested id set:
one output entry per requested id, in request order, each carrying either
an extracted entry text (`some`) or the NOT FOUND sentinel (`none`); no
requested id is dropped and no extra id appears. -/
theorem claim_C1_resolver_totality (text : List Char) (ids : List Nat) :
    (resolve_references text ids).map Prod.fst = ids :=
  resolve_references_map_fst text ids

/-- **C2.** For every input text the Citation Parser returns a strictly
increasing (hence duplicate-free) list of ids; in particular parsing
`"[3,3] and [1]"` yields exactly `[1, 3]`. -/
theorem claim_C2_parser_sorted_nodup :
    (∀ text : List Char, List.Sorted (· < ·) (parse_citations text)) ∧
      parse_citations ("[3,3] and [1]".data) = [1, 3] := by
  constructor
  · intro text
    have h1 : List.Sorted (· ≤ ·) (parse_citations text) :=
      List.sorted_insertionSort _ _
    have h2 : (parse_citations text).Nodup :=
      (List.perm_insertionSort (· ≤ ·) ((all_refs text).dedup)).nodup_iff.mpr
        (List.nodup_dedup _)
    exact h1.lt_of_le h2
  · decide

/-- **C6.** Bracketed content that is not a comma-separated decimal
integer list contributes nothing to the parse and raises no error:
`"[Smith, 2020] reported [5]"` yields exactly `[5]`, and a text with only
malformed markers yields the empty set. -/
theorem claim_C6_parser_ignores_nonnumeric :
    parse_citations ("[Smith, 2020] reported [5]".data) = [5] ∧
      parse_citations ("[Fig. 3] and [Smith 2020]".data) = [] := by
  exact ⟨by decide, by decide⟩

/-! ## Claims about the Reference Resolver -/

/-- **C5.** For an ascending requested id list, the Resolver reports
entries in ascending id order, for every full text (hence independently
of the order in which entries appear in the bibliography). -/
theorem claim_C5_resolver_ordering (text : List Char) (ids : List Nat)
    (h : List.Sorted (· < ·) ids) :
    List.Sorted (· < ·) ((resolve_references text ids).map Prod.fst) := by
  rw [resolve_references_map_fst]
  exact h

/-- Witness for C5, on a bibliography that lists `[5]` before `[2]`:
requesting the ascending set `{2, 5}` reports ids in ascending order. -/
theorem claim_C5_resolver_ordering_witness :
    List.Sorted (· < ·)
      ((resolve_references ("References\n[5] Eve. E.\n[2] Bob. B.".data)
        [2, 5]).map Prod.fst) :=
  claim_C5_resolver_ordering ("References\n[5] Eve. E.\n[2] Bob. B.".data)
    [2, 5] (by decide)

/-- On the empty bibliography block no id can be extracted. -/
theorem extractRef_nil (n : Nat) : extractRef [] n = none := rfl

/-- **C7.** Resolving any non-empty requested id list against the empty
full text returns the NOT FOUND sentinel for every requested id (and is
an ordinary total computation, not an error). -/
theorem claim_C7_empty_text (ids : List Nat) (_hne : ids ≠ []) :
    resolve_references ("".data) ids = ids.map fun n => (n, none) := by
  have hb : references_text ("".data) = [] := rfl
  simp only [resolve_references, hb, extractRef_nil]

/-- Witness for C7 at the concrete request `[1, 2]`. -/
theorem claim_C7_empty_text_witness :
    resolve_references ("".data) [1, 2] = [1, 2].map fun n => (n, none) :=
  claim_C7_empty_text [1, 2] (by decide)

/-- **C3, counterexample.** On the claim's own example text
`"[7] Alice. Title A.\n8\n[8] Bob. Title B."` (which contains neither the
token `References` nor the marker `[1]`), the resolver reports both
requested ids NOT FOUND instead of the claimed entry texts: the block
locator's failed `find` results leave only the final character `'.'` as
the bibliography block. -/
theorem claim_C3_boundary_counterexample :
    resolve_references ("[7] Alice. Title A.\n8\n[8] Bob. Title B.".data)
        [7, 8] = [(7, none), (8, none)] ∧
      resolve_references ("[7] Alice. Title A.\n8\n[8] Bob. Title B.".data)
          [7, 8] ≠
        [(7, some ("Alice. Title A.".data)), (8, some ("Bob. Title B.".data))] :=
  ⟨by decide, by decide⟩

/-- The lazy group `(.*?)` really stops at the earliest position whose
remaining suffix satisfies the multi-terminator lookahead: the extracted
raw entry is the prefix up to the first terminator position, and no
earlier position is a terminator. -/
theorem lazyGroup_earliest_terminator (s : List Char) :
    ∃ k, lazyGroup s = s.take k ∧ isTerminator (s.drop k) = true ∧
      ∀ j, j < k → isTerminator (s.drop j) = false := by
  induction s with
  | nil => exact ⟨0, rfl, by decide, fun j hj => absurd hj (Nat.not_lt_zero j)⟩
  | cons c cs ih =>
    by_cases h : isTerminator (c :: cs) = true
    · exact ⟨0, by simp [lazyGroup, h], h, fun j hj => absurd hj (Nat.not_lt_zero j)⟩
    · obtain ⟨k, h1, h2, h3⟩ := ih
      refine ⟨k + 1, ?_, ?_, ?_⟩
      · simp [lazyGroup, h, h1]
      · simpa using h2
      · intro j hj
        match j with
        | 0 => simpa using Bool.not_eq_true _ ▸ (Bool.eq_false_iff.mpr h)
        | j' + 1 =>
          simpa using h3 j' (Nat.lt_of_succ_lt_succ hj)

/-- **C3, amended.** For each id found in the bibliography block, the
raw entry text extends from just after the marker `[id]` and its trailing
whitespace up to the earliest position satisfying the terminator
lookahead (a newline followed by `[`, a newline followed by `Appendix`, a
newline-digits-newline page-number line, or the end anchor); and on the
claim's example text prefixed by its `References` header — so that the
block locator finds the bibliography — resolving `{7, 8}` yields entry 7
without the stray page-number line `8` and entry 8 intact. -/
theorem claim_C3_boundary_amended :
    (∀ s : List Char, ∃ k, lazyGroup s = s.take k ∧
        isTerminator (s.drop k) = true ∧
        ∀ j, j < k → isTerminator (s.drop j) = false) ∧
      resolve_references
          ("References\n[7] Alice. Title A.\n8\n[8] Bob. Title B.".data)
          [7, 8] =
        [(7, some ("Alice. Title A.".data)), (8, some ("Bob. Title B.".data))] :=
  ⟨lazyGroup_earliest_terminator, by decide⟩

/-- The marker list is never empty (it starts with `[`), so it cannot be
a prefix of the empty block. -/
theorem startsWith_marker_nil (n : Nat) : startsWith (marker n) [] = false := rfl

/-- If no occurrence of the marker in `s` is followed by a whitespace
character, the entry-pattern search fails. -/
theorem searchRef_eq_none (n : Nat) :
    ∀ s : List Char,
      (∀ i, startsWith (marker n) (s.drop i) = true →
        followedByWs (s.drop (i + (marker n).length)) = false) →
      searchRef s n = none := by
  intro s
  induction s with
  | nil => intro _; simp [searchRef, matchRefAt, startsWith_marker_nil]
  | cons c t ih =>
    intro h
    have hmatch : matchRefAt (c :: t) n = none := by
      by_cases hsw : startsWith (marker n) (c :: t) = true
      · have h0 := h 0 (by simpa using hsw)
        simp only [Nat.zero_add, List.drop_zero] at h0 ⊢
        unfold matchRefAt
        rw [if_pos hsw]
        rcases hd : (c :: t).drop (marker n).length with _ | ⟨d, ds⟩
        · rfl
        · rw [hd] at h0
          simp only [followedByWs] at h0
          simp [h0]
      · unfold matchRefAt
        rw [if_neg (by simp [hsw])]
    have hrec : searchRef t n = none := by
      apply ih
      intro i hi
      have := h (i + 1) (by simpa [List.drop_succ_cons] using hi)
      have harith : i + 1 + (marker n).length = (i + (marker n).length) + 1 := by omega
      rw [harith, List.drop_succ_cons] at this
      exact this
    simp [searchRef, hmatch, hrec]

/-- **C10.** If every occurrence of `[id]` in the bibliography block is
*not* followed by a whitespace character (in particular when its only
occurrence is directly followed by a non-whitespace character, as in
`"[7]Alice"`), the id is reported NOT FOUND. -/
theorem claim_C10_marker_needs_whitespace (text : List Char) (n : Nat)
    (ids : List Nat) (hmem : n ∈ ids)
    (h : ∀ i, i < (references_text text).length →
      startsWith (marker n) ((references_text text).drop i) = true →
      followedByWs ((references_text text).drop (i + (marker n).length)) = false) :
    (n, none) ∈ resolve_references text ids := by
  have hall : ∀ i, startsWith (marker n) ((references_text text).drop i) = true →
      followedByWs ((references_text text).drop (i + (marker n).length)) = false := by
    intro i hi
    by_cases hlt : i < (references_text text).length
    · exact h i hlt hi
    · rw [List.drop_eq_nil_of_le (Nat.le_of_not_lt hlt)] at hi
      rw [startsWith_marker_nil] at hi
      exact absurd hi (by simp)
  have hs : searchRef (references_text text) n = none :=
    searchRef_eq_none n (references_text text) hall
  have he : extractRef (references_text text) n = none := by
    simp [extractRef, hs]
  exact List.mem_map.mpr ⟨n, hmem, by rw [he]⟩

/-- Witness for C10: in `"References\n[7]Alice"` the only occurrence of
`[7]` is glued to the entry text, so id 7 is NOT FOUND. -/
theorem claim_C10_marker_needs_whitespace_witness :
    (7, none) ∈ resolve_references ("References\n[7]Alice".data) [7] :=
  claim_C10_marker_needs_whitespace ("References\n[7]Alice".data) 7 [7]
    (by decide) (by decide)

/-- **C4.** When the full text contains neither `References` nor `[1]`,
both `find` calls return `-1` and the Python slice `text[-1:]` keeps only
the final character, so the bibliography block is *not* the entire
remaining text: on `"[2] Bob."` the block is `"."` and id 2 is reported
NOT FOUND, although the entry pattern would have extracted `"Bob."` had
the whole text been used as the block. -/
theorem claim_C4_block_fallback_eval :
    references_text ("[2] Bob.".data) = (".".data) ∧
      resolve_references ("[2] Bob.".data) [2] = [(2, none)] ∧
      extractRef ("[2] Bob.".data) 2 = some ("Bob.".data) :=
  ⟨by decide, by decide, by decide⟩

/-! ## Whitespace normalization of extracted entries (C8) -/

/-- Dropping leading whitespace leaves a whitespace-free head. -/
theorem headNoWs_dropSpaces (s : List Char) : headNoWs (dropSpaces s) = true := by
  induction s with
  | nil => rfl
  | cons c cs ih =>
    by_cases hc : isPySpace c = true
    · simpa [dropSpaces, hc] using ih
    · simp [dropSpaces, hc, headNoWs]

/-- `lastNoWs` through `reverse` is `headNoWs`. -/
theorem lastNoWs_eq_headNoWs_reverse (t : List Char) :
    lastNoWs t = headNoWs t.reverse := by
  induction t with
  | nil => rfl
  | cons c cs ih =>
    cases cs with
    | nil => rfl
    | cons d rest =>
      have h1 : lastNoWs (c :: d :: rest) = lastNoWs (d :: rest) := rfl
      rw [h1, ih]
      have hne : (d :: rest).reverse ≠ [] := by simp
      rcases hr : (d :: rest).reverse with _ | ⟨e, es⟩
      · exact absurd hr hne
      · simp [List.reverse_cons, hr, headNoWs]

/-- Dropping leading whitespace preserves a whitespace-free tail. -/
theorem lastNoWs_dropSpaces (s : List Char) (h : lastNoWs s = true) :
    lastNoWs (dropSpaces s) = true := by
  induction s with
  | nil => rfl
  | cons c cs ih =>
    by_cases hc : isPySpace c = true
    · rw [show dropSpaces (c :: cs) = dropSpaces cs by simp [dropSpaces, hc]]
      apply ih
      cases cs with
      | nil => simp [lastNoWs, hc] at h
      | cons d rest => exact h
    · simpa [dropSpaces, hc] using h

/-- The stripped group has no leading whitespace. -/
theorem pyStrip_headNoWs (s : List Char) : headNoWs (pyStrip s) = true := by
  unfold pyStrip
  rw [← lastNoWs_eq_headNoWs_reverse]
  apply lastNoWs_dropSpaces
  rw [lastNoWs_eq_headNoWs_reverse, List.reverse_reverse]
  exact headNoWs_dropSpaces s

/-- The stripped group has no trailing whitespace. -/
theorem pyStrip_lastNoWs (s : List Char) : lastNoWs (pyStrip s) = true := by
  unfold pyStrip
  rw [lastNoWs_eq_headNoWs_reverse, List.reverse_reverse]
  exact headNoWs_dropSpaces _

/-- Every whitespace character the collapse emits is a plain space. -/
theorem collapseAux_all_space (s : List Char) :
    ∀ b, ((collapseAux b s).all fun c => !isPySpace c || c = ' ') = true := by
  induction s with
  | nil => intro b; rfl
  | cons c cs ih =>
    intro b
    by_cases hc : isPySpace c = true
    · cases b with
      | true => simpa [collapseAux, hc] using ih true
      | false => simp [collapseAux, hc, List.all_cons, ih true]
    · simp [collapseAux, hc, List.all_cons, ih false]

/-- After a whitespace run was just replaced, the next emitted character
is not whitespace. -/
theorem collapseAux_true_headNoWs (s : List Char) :
    headNoWs (collapseAux true s) = true := by
  induction s with
  | nil => rfl
  | cons c cs ih =>
    by_cases hc : isPySpace c = true
    · simpa [collapseAux, hc] using ih
    · simp [collapseAux, hc, headNoWs]

/-- The collapse never emits two adjacent whitespace characters. -/
theorem collapseAux_noAdjWs (s : List Char) :
    ∀ b, noAdjWs (collapseAux b s) = true := by
  induction s with
  | nil => intro b; rfl
  | cons c cs ih =>
    intro b
    by_cases hc : isPySpace c = true
    · cases b with
      | true => simpa [collapseAux, hc] using ih true
      | false =>
        rw [show collapseAux false (c :: cs) = ' ' :: collapseAux true cs by
          simp [collapseAux, hc]]
        rcases hl : collapseAux true cs with _ | ⟨d, t⟩
        · rfl
        · have hd : headNoWs (d :: t) = true := by
            rw [← hl]; exact collapseAux_true_headNoWs cs
          have ht : noAdjWs (d :: t) = true := by rw [← hl]; exact ih true
          simp only [headNoWs, Bool.not_eq_true'] at hd
          simp [noAdjWs, hd, ht]
    · rw [show collapseAux b (c :: cs) = c :: collapseAux false cs by
        simp [collapseAux, hc]]
      rcases hl : collapseAux false cs with _ | ⟨d, t⟩
      · rfl
      · have ht : noAdjWs (d :: t) = true := by rw [← hl]; exact ih false
        simp only [Bool.not_eq_true] at hc
        simp [noAdjWs, hc, ht]

/-- The collapse keeps a whitespace-free head whitespace-free. -/
theorem collapseAux_headNoWs (s : List Char) (h : headNoWs s = true) :
    headNoWs (collapseAux false s) = true := by
  cases s with
  | nil => rfl
  | cons c cs =>
    simp only [headNoWs, Bool.not_eq_true'] at h
    simp [collapseAux, h, headNoWs]

/-- On a nonempty input whose last character is not whitespace, the
collapse output is nonempty and its last character is not whitespace. -/
theorem collapseAux_lastNoWs (s : List Char) :
    ∀ b, s ≠ [] → lastNoWs s = true →
      collapseAux b s ≠ [] ∧ lastNoWs (collapseAux b s) = true := by
  induction s with
  | nil => intro b hne _; exact absurd rfl hne
  | cons c cs ih =>
    intro b _ hlast
    cases cs with
    | nil =>
      have hc : isPySpace c = false := by
        simpa [lastNoWs, Bool.not_eq_true'] using hlast
      simp [collapseAux, hc, lastNoWs]
    | cons d rest =>
      have hlast' : lastNoWs (d :: rest) = true := hlast
      by_cases hc : isPySpace c = true
      · cases b with
        | true =>
          rw [show collapseAux true (c :: d :: rest) = collapseAux true (d :: rest) by
            simp [collapseAux, hc]]
          exact ih true (by simp) hlast'
        | false =>
          rw [show collapseAux false (c :: d :: rest) = ' ' :: collapseAux true (d :: rest) by
            simp [collapseAux, hc]]
          obtain ⟨hne, hlw⟩ := ih true (by simp) hlast'
          rcases hl : collapseAux true (d :: rest) with _ | ⟨e, es⟩
          · exact absurd hl hne
          · rw [hl] at hlw
            exact ⟨by simp, by simpa [lastNoWs] using hlw⟩
      · rw [show collapseAux b (c :: d :: rest) = c :: collapseAux false (d :: rest) by
          simp [collapseAux, hc]]
        obtain ⟨hne, hlw⟩ := ih false (by simp) hlast'
        rcases hl : collapseAux false (d :: rest) with _ | ⟨e, es⟩
        · exact absurd hl hne
        · rw [hl] at hlw
          exact ⟨by simp, by simpa [lastNoWs] using hlw⟩

/-- The cleaned entry text `re.sub(r'\s+', ' ', group.strip())` is fully
normalized. -/
theorem collapseWs_pyStrip_normalized (raw : List Char) :
    wsNormalized (collapseWs (pyStrip raw)) = true := by
  have hh : headNoWs (pyStrip raw) = true := pyStrip_headNoWs raw
  have hl : lastNoWs (pyStrip raw) = true := pyStrip_lastNoWs raw
  unfold collapseWs
  rcases hs : pyStrip raw with _ | ⟨c, cs⟩
  · rfl
  · rw [hs] at hh hl
    have h1 := collapseAux_all_space (c :: cs) false
    have h2 := collapseAux_noAdjWs (c :: cs) false
    have h3 := collapseAux_headNoWs (c :: cs) hh
    have h4 := (collapseAux_lastNoWs (c :: cs) false (by simp) hl).2
    simp [wsNormalized, h1, h2, h3, h4]

/-- **C8.** Every entry text the Resolver reports is whitespace
normalized: internal whitespace runs are collapsed to single spaces and
there is no leading or trailing whitespace. -/
theorem claim_C8_whitespace_normalized (text : List Char) (ids : List Nat)
    (n : Nat) (t : List Char)
    (hmem : (n, some t) ∈ resolve_references text ids) :
    wsNormalized t = true := by
  obtain ⟨m, _, heq⟩ := List.mem_map.mp hmem
  rw [Prod.mk.injEq] at heq
  obtain ⟨raw, _, hraw⟩ := Option.map_eq_some'.mp heq.2
  rw [← hraw]
  exact collapseWs_pyStrip_normalized raw

/-- Witness for C8: the entry extracted for id 3 from a bibliography with
internal line breaks and double spaces is reported as `"A B C."`. -/
theorem claim_C8_whitespace_normalized_witness :
    wsNormalized ("A B C.".data) = true :=
  claim_C8_whitespace_normalized ("References\n[3] A\n  B  C.\n".data) [3] 3
    ("A B C.".data) (by decide)

/-! ## Positivity of parsed ids (C9) -/

/-- `takeDigits` splits its input: taken digits followed by the rest. -/
theorem takeDigits_append (s : List Char) :
    (takeDigits s).1 ++ (takeDigits s).2 = s := by
  induction s with
  | nil => rfl
  | cons c cs ih =>
    by_cases hc : isDig c = true
    · simp [takeDigits, hc, ih]
    · simp [takeDigits, hc]

/-- Every character collected by `takeDigits` is a digit. -/
theorem takeDigits_isDig (s : List Char) :
    ∀ c ∈ (takeDigits s).1, isDig c = true := by
  induction s with
  | nil => intro c hc; simp [takeDigits] at hc
  | cons d cs ih =>
    intro c hc
    by_cases hd : isDig d = true
    · simp only [takeDigits, hd, if_true, List.mem_cons] at hc
      rcases hc with rfl | hc
      · exact hd
      · exact ih c hc
    · simp [takeDigits, hd] at hc

/-- Dropping leading whitespace yields a subset of the characters. -/
theorem dropSpaces_subset (s : List Char) : ∀ c ∈ dropSpaces s, c ∈ s := by
  induction s with
  | nil => intro c hc; simp [dropSpaces] at hc
  | cons d cs ih =>
    intro c hc
    by_cases hd : isPySpace d = true
    · rw [show dropSpaces (d :: cs) = dropSpaces cs by simp [dropSpaces, hd]] at hc
      exact List.mem_cons_of_mem _ (ih c hc)
    · rwa [show dropSpaces (d :: cs) = d :: cs by simp [dropSpaces, hd]] at hc

/-- The digit-value fold never drops below 1 once the accumulator is
at least 1. -/
theorem digitsVal_foldl_ge (rest : List Char) :
    ∀ acc, 1 ≤ acc → 1 ≤ rest.foldl (fun a c => 10 * a + (c.toNat - 48)) acc := by
  induction rest with
  | nil => intro acc h; simpa using h
  | cons c cs ih =>
    intro acc h
    simp only [List.foldl_cons]
    apply ih
    omega

/-- A digit has code point at least 48. -/
theorem isDig_ge (c : Char) (h : isDig c = true) : 48 ≤ c.toNat := by
  simp only [isDig, Bool.and_eq_true, decide_eq_true_eq] at h
  have h2 : ('0' : Char).val.toBitVec ≤ c.val.toBitVec := h.1
  have h3 : ('0' : Char).val.toBitVec.toNat ≤ c.val.toBitVec.toNat := h2
  simpa [Char.toNat, UInt32.toNat] using h3

/-- A character with code point 48 is the digit `'0'`. -/
theorem eq_zero_char_of_toNat (c : Char) (h : c.toNat = 48) : c = '0' := by
  have : c.val = ('0' : Char).val :=
    UInt32.toNat.inj (by simpa [Char.toNat] using h)
  exact Char.ext this

/-- A nonempty digit run that avoids the digit `'0'` has positive value. -/
theorem digitsVal_pos (d : List Char) (hne : d ≠ [])
    (h : ∀ c ∈ d, isDig c = true ∧ c ≠ '0') : 0 < digitsVal d := by
  rcases d with _ | ⟨c, rest⟩
  · exact absurd rfl hne
  · obtain ⟨hdig, hne0⟩ := h c (by simp)
    have h48 : 48 ≤ c.toNat := isDig_ge c hdig
    have hneq : c.toNat ≠ 48 := fun heq => hne0 (eq_zero_char_of_toNat c heq)
    unfold digitsVal
    simp only [List.foldl_cons]
    apply digitsVal_foldl_ge
    omega

/-- Soundness of the comma loop: every component of a successful match
either was already in the accumulator, or is a nonempty digit run whose
characters come from the scanned text; the remaining text after the
match is a subset of the scanned characters. -/
theorem matchCompsAux_sound :
    ∀ (fuel : Nat) (s : List Char) (acc comps : List (List Char)) (rest : List Char),
      matchCompsAux fuel s acc = some (comps, rest) →
      (∀ d ∈ comps, d ∈ acc ∨ (d ≠ [] ∧ ∀ c ∈ d, isDig c = true ∧ c ∈ s)) ∧
        (∀ c ∈ rest, c ∈ s) := by
  intro fuel
  induction fuel with
  | zero => intro s acc comps rest h; simp [matchCompsAux] at h
  | succ fuel ih =>
    intro s acc comps rest h
    rcases s with _ | ⟨c, r1⟩
    · simp [matchCompsAux] at h
    · by_cases hcl : c = ']'
      · subst hcl
        rw [show matchCompsAux (fuel + 1) (']' :: r1) acc = some (acc.reverse, r1) by
          simp [matchCompsAux]] at h
        obtain ⟨h1, h2⟩ : acc.reverse = comps ∧ r1 = rest := by
          simpa using h
        subst h1; subst h2
        constructor
        · intro d hd
          exact Or.inl (List.mem_reverse.mp hd)
        · intro x hx
          exact List.mem_cons_of_mem _ hx
      · by_cases hcm : c = ','
        · subst hcm
          by_cases hemp : (takeDigits (dropSpaces r1)).1.isEmpty = true
          · rw [show matchCompsAux (fuel + 1) (',' :: r1) acc = none by
              simp [matchCompsAux, hcl, hemp]] at h
            simp at h
          · rw [show matchCompsAux (fuel + 1) (',' :: r1) acc =
                matchCompsAux fuel (takeDigits (dropSpaces r1)).2
                  ((takeDigits (dropSpaces r1)).1 :: acc) by
              simp [matchCompsAux, hcl, hemp]] at h
            obtain ⟨hcomps, hrest⟩ := ih _ _ _ _ h
            have hsub2 : ∀ x ∈ (takeDigits (dropSpaces r1)).2, x ∈ ',' :: r1 := by
              intro x hx
              apply List.mem_cons_of_mem
              apply dropSpaces_subset
              rw [← takeDigits_append (dropSpaces r1)]
              exact List.mem_append_right _ hx
            have hsub1 : ∀ x ∈ (takeDigits (dropSpaces r1)).1, x ∈ ',' :: r1 := by
              intro x hx
              apply List.mem_cons_of_mem
              apply dropSpaces_subset
              rw [← takeDigits_append (dropSpaces r1)]
              exact List.mem_append_left _ hx
            constructor
            · intro d hd
              rcases hcomps d hd with hacc | ⟨hne, hgood⟩
              · rcases List.mem_cons.mp hacc with rfl | hacc'
                · refine Or.inr ⟨by simpa [List.isEmpty_iff] using hemp, ?_⟩
                  intro x hx
                  exact ⟨takeDigits_isDig _ x hx, hsub1 x hx⟩
                · exact Or.inl hacc'
              · exact Or.inr ⟨hne, fun x hx =>
                  ⟨(hgood x hx).1, hsub2 x (hgood x hx).2⟩⟩
            · exact fun x hx => hsub2 x (hrest x hx)
        · rw [show matchCompsAux (fuel + 1) (c :: r1) acc = none by
            simp [matchCompsAux, hcl, hcm]] at h
          simp at h

/-- Soundness of the citation-marker match: every component is a
nonempty digit run drawn from the scanned text, and the remaining text
is a subset of the scanned characters. -/
theorem matchCitationAt_sound (s : List Char) (comps : List (List Char))
    (rest : List Char) (h : matchCitationAt s = some (comps, rest)) :
    (∀ d ∈ comps, d ≠ [] ∧ ∀ c ∈ d, isDig c = true ∧ c ∈ s) ∧
      (∀ c ∈ rest, c ∈ s) := by
  rcases s with _ | ⟨c, r0⟩
  · simp [matchCitationAt] at h
  · by_cases hc : c = '['
    · subst hc
      by_cases hemp : (takeDigits r0).1.isEmpty = true
      · rw [show matchCitationAt ('[' :: r0) = none by
          simp [matchCitationAt, hemp]] at h
        simp at h
      · rw [show matchCitationAt ('[' :: r0) =
            matchCompsAux ((takeDigits r0).2.length + 1) (takeDigits r0).2
              [(takeDigits r0).1] by
          simp [matchCitationAt, hemp]] at h
        obtain ⟨hcomps, hrest⟩ := matchCompsAux_sound _ _ _ _ _ h
        have hsub2 : ∀ x ∈ (takeDigits r0).2, x ∈ '[' :: r0 := by
          intro x hx
          apply List.mem_cons_of_mem
          rw [← takeDigits_append r0]
          exact List.mem_append_right _ hx
        have hsub1 : ∀ x ∈ (takeDigits r0).1, x ∈ '[' :: r0 := by
          intro x hx
          apply List.mem_cons_of_mem
          rw [← takeDigits_append r0]
          exact List.mem_append_left _ hx
        constructor
        · intro d hd
          rcases hcomps d hd with hacc | ⟨hne, hgood⟩
          · rcases List.mem_cons.mp hacc with rfl | hacc'
            · refine ⟨by simpa [List.isEmpty_iff] using hemp, ?_⟩
              intro x hx
              exact ⟨takeDigits_isDig _ x hx, hsub1 x hx⟩
            · simp at hacc'
          · exact ⟨hne, fun x hx => ⟨(hgood x hx).1, hsub2 x (hgood x hx).2⟩⟩
        · exact fun x hx => hsub2 x (hrest x hx)
    · rw [show matchCitationAt (c :: r0) = none by simp [matchCitationAt, hc]] at h
      simp at h

/-- On a text containing no `'0'` character, every reference number the
scan collects is positive. -/
theorem allRefsAux_pos :
    ∀ (fuel : Nat) (s : List Char), (∀ c ∈ s, c ≠ '0') →
      ∀ n ∈ allRefsAux fuel s, 0 < n := by
  intro fuel
  induction fuel with
  | zero => intro s _ n hn; simp [allRefsAux] at hn
  | succ fuel ih =>
    intro s h n hn
    rcases hm : matchCitationAt s with _ | ⟨comps, rest⟩
    · rcases s with _ | ⟨c, t⟩
      · simp [allRefsAux, hm] at hn
      · rw [show allRefsAux (fuel + 1) (c :: t) = allRefsAux fuel t by
          simp [allRefsAux, hm]] at hn
        exact ih t (fun x hx => h x (List.mem_cons_of_mem _ hx)) n hn
    · rw [show allRefsAux (fuel + 1) s = comps.map digitsVal ++ allRefsAux fuel rest by
        simp [allRefsAux, hm]] at hn
      rcases List.mem_append.mp hn with h1 | h2
      · obtain ⟨d, hd, hdv⟩ := List.mem_map.mp h1
        obtain ⟨hcomps, _⟩ := matchCitationAt_sound s comps rest hm
        obtain ⟨hne, hgood⟩ := hcomps d hd
        rw [← hdv]
        exact digitsVal_pos d hne fun x hx =>
          ⟨(hgood x hx).1, h x (hgood x hx).2⟩
      · obtain ⟨_, hrest⟩ := matchCitationAt_sound s comps rest hm
        exact ih rest (fun x hx => h x (hrest x hx)) n h2

/-- **C9, counterexample.** It is not the case that every id the
Citation Parser returns is positive: the text `"[0]"` parses to the id
`0`. -/
theorem claim_C9_positive_counterexample :
    ¬ (∀ text : List Char, ∀ n ∈ parse_citations text, 0 < n) := by
  intro h
  have h0 : (0 : Nat) ∈ parse_citations ("[0]".data) := by decide
  exact absurd (h ("[0]".data) 0 h0) (by decide)

/-- **C9, amended.** Every ReferenceId the Citation Parser returns is a
natural number; it is positive whenever the input text contains no `'0'`
character (the parser does return the non-positive id `0` for markers
such as `[0]`). -/
theorem claim_C9_positive_amended (text : List Char)
    (h0 : ∀ c ∈ text, c ≠ '0') : ∀ n ∈ parse_citations text, 0 < n := by
  intro n hn
  have h1 : n ∈ (all_refs text).dedup :=
    (List.perm_insertionSort (· ≤ ·) ((all_refs text).dedup)).mem_iff.mp hn
  have h2 : n ∈ all_refs text := List.mem_dedup.mp h1
  exact allRefsAux_pos _ _ h0 n h2

/-- Witness for C9 (amended): the text `"[5]"` contains no `'0'`, its
parse contains 5, and 5 is positive. -/
theorem claim_C9_positive_amended_witness :
    (5 : Nat) ∈ parse_citations ("[5]".data) ∧ 0 < 5 :=
  ⟨by decide, claim_C9_positive_amended ("[5]".data) (by decide) 5 (by decide)⟩
